import Mathlib

/-!
Verification of the core pipeline of the obsidian-claude-code plugin
(src/main.ts): shell-argument quoting, the outer AppleScript string-literal
escaping layer, vault path validation, binary detection with memoization,
and the terminal launcher control flow.

Strings are modelled as `List Char`.  Every definition is translated from
the TypeScript source; the POSIX shell field-splitting semantics and the
outer string-literal unescaping (performed by the AppleScript interpreter,
not by code of this repository) are modelled from the spec and are marked
as such in their doc comments.
-/

/-- The single-quote character, code point 39. -/
def qc : Char := Char.ofNat 39

/-- The double-quote character, code point 34. -/
def dqc : Char := Char.ofNat 34

/-- The backslash character, code point 92. -/
def bsc : Char := Char.ofNat 92

/-- The newline character. -/
def nlc : Char := Char.ofNat 10

/-- The carriage-return character. -/
def crc : Char := Char.ofNat 13

/-- The horizontal-tab character. -/
def tabc : Char := Char.ofNat 9

/-- The vertical-tab character. -/
def vtabc : Char := Char.ofNat 11

/-- The form-feed character. -/
def ffc : Char := Char.ofNat 12

/-- The backtick character, code point 96. -/
def btc : Char := Char.ofNat 96

/-- Abbreviation turning a string literal into the character list it denotes. -/
def toL (s : String) : List Char := s.data

@[simp] lemma bs_ne_sq : ¬ (bsc = qc) := by decide

@[simp] lemma bs_ne_dq : ¬ (bsc = dqc) := by decide

@[simp] lemma sq_ne_dq : ¬ (qc = dqc) := by decide

@[simp] lemma sq_ne_bs : ¬ (qc = bsc) := by decide

@[simp] lemma dq_ne_sq : ¬ (dqc = qc) := by decide

@[simp] lemma dq_ne_bs : ¬ (dqc = bsc) := by decide

/-- Body of `escapeShellArg` (src/main.ts line 166): every single quote is
replaced by the four characters quote, backslash, quote, quote; all other
characters pass through. -/
def escInner : List Char → List Char
  | [] => []
  | c :: cs => (if c = qc then [qc, bsc, qc, qc] else [c]) ++ escInner cs

/-- `escapeShellArg` (src/main.ts lines 163-167): wrap the argument in single
quotes, replacing each embedded single quote by the close/escape/reopen
sequence. -/
def escapeShellArg (arg : List Char) : List Char :=
  qc :: escInner arg ++ [qc]

/-- First replacement pass of the outer layer (src/main.ts line 189):
`replace(/\\/g, ...)` doubles every backslash. -/
def replBackslash : List Char → List Char
  | [] => []
  | c :: cs => (if c = bsc then [bsc, bsc] else [c]) ++ replBackslash cs

/-- Second replacement pass of the outer layer (src/main.ts line 189):
`replace(/"/g, ...)` puts a backslash before every double quote. -/
def replQuote : List Char → List Char
  | [] => []
  | c :: cs => (if c = dqc then [bsc, dqc] else [c]) ++ replQuote cs

/-- The outer-layer escape applied to the shell command before embedding it
in the AppleScript `do script "..."` literal (src/main.ts lines 189 and
191): first double all backslashes, then backslash-escape all double
quotes. -/
def outerLayerEscape (s : List Char) : List Char :=
  replQuote (replBackslash s)

/-- One-pass form of the outer-layer escape, used to reason about the two
sequential replacement passes. -/
def escOuter : List Char → List Char
  | [] => []
  | c :: cs => (if c = bsc then [bsc, bsc] else if c = dqc then [bsc, dqc] else [c]) ++ escOuter cs

/-- Modelled from the spec: undoing the outer layer's string-literal
escaping (the AppleScript reader of a double-quoted literal): a backslash
followed by any character yields that character; every other character
yields itself. -/
def outerUnescape : List Char → List Char
  | [] => []
  | [c] => [c]
  | c :: d :: rest => if c = bsc then d :: outerUnescape rest else c :: outerUnescape (d :: rest)

/-- States of the POSIX shell field splitter: outside quotes, inside single
quotes, inside double quotes, after an unquoted backslash, after a
backslash inside double quotes. -/
inductive SMode where
  | mTop
  | mSingle
  | mDouble
  | mEscTop
  | mEscDouble
deriving DecidableEq, Repr

/-- Modelled from the spec: POSIX shell quoting rules, as a field splitter.
`acc` is the word currently being built (`none` when between words).
Single quotes protect everything until the closing quote; double quotes
protect everything except that a backslash escapes `"`, `\`, `$` and
backtick; an unquoted backslash escapes the next character; unquoted
blanks separate fields.  Expansions and backslash-newline continuation are
not modelled (no input produced by the escapers exercises them).  `none`
means the input is not a complete shell word list (unterminated quote or
trailing backslash). -/
def shellSplitGo (mode : SMode) (acc : Option (List Char)) : List Char → Option (List (List Char))
  | [] =>
    match mode, acc with
    | .mTop, none => some []
    | .mTop, some w => some [w]
    | _, _ => none
  | c :: rest =>
    match mode with
    | .mTop =>
      if c = qc then shellSplitGo .mSingle (some (acc.getD [])) rest
      else if c = dqc then shellSplitGo .mDouble (some (acc.getD [])) rest
      else if c = bsc then shellSplitGo .mEscTop (some (acc.getD [])) rest
      else if c = ' ' ∨ c = tabc then
        match acc with
        | none => shellSplitGo .mTop none rest
        | some w => (shellSplitGo .mTop none rest).map (fun ws => w :: ws)
      else shellSplitGo .mTop (some (acc.getD [] ++ [c])) rest
    | .mEscTop => shellSplitGo .mTop (some (acc.getD [] ++ [c])) rest
    | .mSingle =>
      if c = qc then shellSplitGo .mTop acc rest
      else shellSplitGo .mSingle (some (acc.getD [] ++ [c])) rest
    | .mDouble =>
      if c = dqc then shellSplitGo .mTop acc rest
      else if c = bsc then shellSplitGo .mEscDouble acc rest
      else shellSplitGo .mDouble (some (acc.getD [] ++ [c])) rest
    | .mEscDouble =>
      if c = dqc ∨ c = bsc ∨ c = '$' ∨ c = btc then
        shellSplitGo .mDouble (some (acc.getD [] ++ [c])) rest
      else shellSplitGo .mDouble (some (acc.getD [] ++ [bsc, c])) rest

/-- Interpret a character list as a POSIX shell word list. -/
def shellSplit (s : List Char) : Option (List (List Char)) :=
  shellSplitGo .mTop none s

lemma replQuote_append (a b : List Char) :
    replQuote (a ++ b) = replQuote a ++ replQuote b := by
  induction a with
  | nil => simp [replQuote]
  | cons c cs ih => simp [replQuote, ih]

lemma outerLayerEscape_eq_escOuter (s : List Char) :
    outerLayerEscape s = escOuter s := by
  induction s with
  | nil => simp [outerLayerEscape, replBackslash, replQuote, escOuter]
  | cons c cs ih =>
    by_cases hb : c = bsc
    · subst hb
      simp only [outerLayerEscape, replBackslash, if_pos rfl, replQuote_append] at *
      simp [replQuote, escOuter, ih]
    · by_cases hq : c = dqc
      · subst hq
        simp only [outerLayerEscape, replBackslash, if_neg dq_ne_bs, replQuote_append] at *
        simp [replQuote, escOuter, ih]
      · simp only [outerLayerEscape, replBackslash, if_neg hb, replQuote_append] at *
        simp [replQuote, escOuter, ih, hb, hq]

lemma escOuter_eq_nil {s : List Char} (h : escOuter s = []) : s = [] := by
  cases s with
  | nil => rfl
  | cons c cs =>
    exfalso
    by_cases hb : c = bsc <;> by_cases hq : c = dqc <;>
      simp [escOuter, hb, hq] at h

lemma outerUnescape_escOuter (s : List Char) : outerUnescape (escOuter s) = s := by
  induction s with
  | nil => simp [escOuter, outerUnescape]
  | cons c cs ih =>
    by_cases hb : c = bsc
    · subst hb
      simp [escOuter, outerUnescape, ih]
    · by_cases hq : c = dqc
      · subst hq
        simp [escOuter, outerUnescape, ih]
      · cases h : escOuter cs with
        | nil =>
          have hcs : cs = [] := escOuter_eq_nil h
          subst hcs
          simp [escOuter, outerUnescape, hb, hq]
        | cons e es =>
          have h2 : outerUnescape (c :: e :: es) = c :: outerUnescape (e :: es) := by
            simp [outerUnescape, hb]
          calc outerUnescape (escOuter (c :: cs))
              = outerUnescape (c :: e :: es) := by simp [escOuter, hb, hq, h]
            _ = c :: outerUnescape (escOuter cs) := by rw [h2, h]
            _ = c :: cs := by rw [ih]

lemma shellSplitGo_single_esc (x acc rest) :
    shellSplitGo .mSingle (some acc) (escInner x ++ qc :: rest)
      = shellSplitGo .mTop (some (acc ++ x)) rest := by
  induction x generalizing acc with
  | nil => simp [escInner, shellSplitGo]
  | cons c x ih =>
    by_cases hc : c = qc
    · subst hc
      simp [escInner, shellSplitGo, ih, List.append_assoc]
    · simp [escInner, hc, shellSplitGo, ih, List.append_assoc]

lemma shellSplit_escapeShellArg (x : List Char) :
    shellSplit (escapeShellArg x) = some [x] := by
  have h := shellSplitGo_single_esc x [] []
  simp only [shellSplit, escapeShellArg]
  have hstep : shellSplitGo .mTop none (qc :: (escInner x ++ [qc]))
      = shellSplitGo .mSingle (some []) (escInner x ++ [qc]) := by
    simp [shellSplitGo]
  simpa [hstep, shellSplitGo] using h

-- sanity checks of the splitter and escaper on concrete inputs
example : shellSplit (toL "a b") = some [toL "a", toL "b"] := by decide
example : escapeShellArg (toL "User" ++ qc :: toL "s") =
    qc :: toL "User" ++ [qc, bsc, qc, qc] ++ toL "s" ++ [qc] := by decide

/-- Whitespace as trimmed by JavaScript `String.prototype.trim` (ASCII
subset; the vault base path check only uses this to detect an
all-whitespace string). -/
def isJsWs (c : Char) : Bool :=
  c = ' ' ∨ c = tabc ∨ c = nlc ∨ c = crc ∨ c = vtabc ∨ c = ffc

/-- Node `path.posix.isAbsolute`: the path is non-empty and starts with a
slash. -/
def isAbsolute (p : List Char) : Bool :=
  match p with
  | [] => false
  | c :: _ => c = '/'

/-- Split a character list at every slash; always returns at least one
(possibly empty) segment. -/
def splitSegs : List Char → List (List Char)
  | [] => [[]]
  | c :: rest =>
    if c = '/' then [] :: splitSegs rest
    else
      match splitSegs rest with
      | [] => [[c]]
      | s :: ss => (c :: s) :: ss

/-- Effect of a `..` segment in Node `normalizeString` on the reversed
stack of output segments: pop the last segment, or keep (resp. drop) the
`..` when there is nothing to pop and `allowAbove` is true (resp.
false). -/
def popDotDot (allowAbove : Bool) : List (List Char) → List (List Char)
  | [] => if allowAbove then [['.', '.']] else []
  | t :: ts => if t = ['.', '.'] then (if allowAbove then ['.', '.'] :: t :: ts else t :: ts) else ts

/-- One step of Node `normalizeString` over a segment, operating on a
reversed stack of output segments: empty and `.` segments are dropped, a
`..` segment pops, other segments are pushed. -/
def normPush (allowAbove : Bool) (stack : List (List Char)) (s : List Char) : List (List Char) :=
  if s = [] ∨ s = ['.'] then stack
  else if s = ['.', '.'] then popDotDot allowAbove stack
  else s :: stack

/-- Fold `normPush` over a list of segments. -/
def normFold (allowAbove : Bool) : List (List Char) → List (List Char) → List (List Char)
  | stack, [] => stack
  | stack, s :: rest => normFold allowAbove (normPush allowAbove stack s) rest

/-- Node `normalizeString` at the segment level: resolve `.` and `..`
segments, returning the surviving segments in order. -/
def normSegs (allowAbove : Bool) (input : List (List Char)) : List (List Char) :=
  (normFold allowAbove [] input).reverse

/-- Join segments with a separator character (used for `/`-joined path
segments and for the space-joined shell command). -/
def joinWith (c : Char) : List (List Char) → List Char
  | [] => []
  | [s] => s
  | s :: rest => s ++ c :: joinWith c rest

/-- Node `path.posix.normalize`: empty input yields `.`; otherwise resolve
`.`/`..` segments (allowing leading `..` only for relative paths), then
re-add the leading slash for absolute paths and the trailing slash when the
input had one, falling back to `/`, `./` or `.` when no segment
survives. -/
def pathNormalize (p : List Char) : List Char :=
  if p = [] then ['.']
  else
    let abs := isAbsolute p
    let trailing := p.getLast? = some '/'
    let core := joinWith '/' (normSegs (!abs) (splitSegs p))
    if core = [] then
      if abs then ['/'] else if trailing then ['.', '/'] else ['.']
    else
      (if abs then '/' :: core else core) ++ (if trailing then ['/'] else [])

/-- Node `path.posix.join` on two parts: empty parts are skipped, the rest
are joined with a slash and the result normalized; all-empty input yields
`.`. -/
def pathJoin (a b : List Char) : List Char :=
  if a = [] then (if b = [] then ['.'] else pathNormalize b)
  else if b = [] then pathNormalize a
  else pathNormalize (a ++ '/' :: b)

/-- Node `path.posix.resolve` with one argument and an explicit working
directory: prepend the working directory when the argument is not
absolute, resolve `.`/`..` segments (never above the root when the result
is absolute), and never keep a trailing slash. -/
def pathResolve (cwd p : List Char) : List Char :=
  let rp :=
    if isAbsolute p then p ++ ['/']
    else (if cwd = [] then [] else cwd ++ ['/']) ++ (if p = [] then [] else p ++ ['/'])
  let abs := isAbsolute p || isAbsolute cwd
  let core := joinWith '/' (normSegs (!abs) (splitSegs rp))
  if abs then '/' :: core
  else if core = [] then ['.'] else core

/-- Node `path.posix.dirname`: strip any trailing slashes (never the
leading character), then strip the last path component; degenerate cases
return `/` or `.`, and a root of two slashes is preserved as `//`. -/
def pathDirname (p : List Char) : List Char :=
  match p with
  | [] => ['.']
  | c0 :: cs =>
    let hasRoot := c0 = '/'
    let r := (cs.reverse.dropWhile (fun c => c = '/')).dropWhile (fun c => c ≠ '/')
    match r with
    | [] => if hasRoot then ['/'] else ['.']
    | _ :: rest => if hasRoot ∧ rest = [] then ['/', '/'] else c0 :: rest.reverse

/-- JavaScript `includes((toL "..")...)` on a character list: true exactly when
two consecutive dots occur anywhere. -/
def hasDotDot : List Char → Bool
  | a :: b :: r => if a = '.' ∧ b = '.' then true else hasDotDot (b :: r)
  | _ => false

/-- The pair returned by a successful `getFilePaths` (src/main.ts lines
64-96). -/
structure FilePaths where
  fullPath : List Char
  directory : List Char
deriving DecidableEq, Repr

/-- `getFilePaths` (src/main.ts lines 64-96), with the ambient
`process.cwd()` made explicit: reject an empty or all-whitespace vault base
path; normalize the file path and reject it when the normalized form
contains `..` anywhere or is absolute; join it onto the base path; reject
unless the resolved join equals the resolved base or extends it past a
separator; otherwise return the full path and its directory. -/
def getFilePaths (cwd basePath filePath : List Char) : Option FilePaths :=
  if basePath.all isJsWs then none
  else
    let normalizedFilePath := pathNormalize filePath
    if hasDotDot normalizedFilePath || isAbsolute normalizedFilePath then none
    else
      let fullPath := pathJoin basePath normalizedFilePath
      let resolvedPath := pathResolve cwd fullPath
      let resolvedBase := pathResolve cwd basePath
      if (resolvedBase ++ ['/']).isPrefixOf resolvedPath ∨ resolvedPath = resolvedBase then
        some ⟨fullPath, pathDirname fullPath⟩
      else none

-- sanity checks of the path model against Node path semantics
example : pathNormalize (toL "a/b/../c") = toL "a/c" := by decide
example : pathNormalize (toL "../a") = toL "../a" := by decide
example : pathNormalize (toL "") = toL "." := by decide
example : pathNormalize (toL "a/") = toL "a/" := by decide
example : pathNormalize (toL "/../a") = toL "/a" := by decide
example : pathNormalize (toL "./a//b/") = toL "a/b/" := by decide
example : pathResolve (toL "/x") (toL "/a/b/") = toL "/a/b" := by decide
example : pathResolve (toL "/x/y") (toL "a/./b") = toL "/x/y/a/b" := by decide
example : pathResolve (toL "/x") (toL "/") = toL "/" := by decide
example : pathDirname (toL "/a/b") = toL "/a" := by decide
example : pathDirname (toL "/a") = toL "/" := by decide
example : pathDirname (toL "a/b/") = toL "a" := by decide
example : pathDirname (toL "//a") = toL "//" := by decide
example : pathJoin (toL "/Users/a/Vault") (toL "Notes/Meeting (2025).md")
    = toL "/Users/a/Vault/Notes/Meeting (2025).md" := by decide
example : hasDotDot (toL "report..final.md") = true := by decide
example : hasDotDot (toL "a.b.c") = false := by decide
example : getFilePaths (toL "/w") (toL "/Users/a/Vault") (toL "Notes/Meeting (2025).md")
    = some ⟨toL "/Users/a/Vault/Notes/Meeting (2025).md", toL "/Users/a/Vault/Notes"⟩ := by decide
example : getFilePaths (toL "/w") (toL "/Users/a/Vault") (toL "../outside.md") = none := by decide
example : getFilePaths (toL "/w") (toL "/Users/a/Vault") (toL "/etc/passwd") = none := by decide
example : getFilePaths (toL "/w") (toL "/Users/a/Vault") (toL "report..final.md") = none := by decide

lemma splitSegs_ne_nil (l : List Char) : splitSegs l ≠ [] := by
  cases l with
  | nil => simp [splitSegs]
  | cons c rest =>
    by_cases hc : c = '/'
    · simp [splitSegs, hc]
    · cases h : splitSegs rest with
      | nil => simp [splitSegs, hc, h]
      | cons s ss => simp [splitSegs, hc, h]

lemma splitSegs_head_prefix {l : List Char} {s : List Char} {ss : List (List Char)}
    (h : splitSegs l = s :: ss) : s <+: l := by
  induction l generalizing s ss with
  | nil =>
    simp [splitSegs] at h
    simp [h.1]
  | cons c rest ih =>
    by_cases hc : c = '/'
    · rw [splitSegs, if_pos hc] at h
      injection h with h1 h2
      rw [← h1]
      exact List.nil_prefix
    · cases hr : splitSegs rest with
      | nil => exact absurd hr (splitSegs_ne_nil rest)
      | cons t ts =>
        simp [splitSegs, hc, hr] at h
        obtain ⟨u, hu⟩ := ih hr
        exact ⟨u, by simp [← h.1, hu]⟩

lemma noslash_of_mem_splitSegs {l s : List Char} (h : s ∈ splitSegs l) : '/' ∉ s := by
  induction l generalizing s with
  | nil =>
    simp [splitSegs] at h
    simp [h]
  | cons c rest ih =>
    by_cases hc : c = '/'
    · simp [splitSegs, hc] at h
      rcases h with h | h
      · simp [h]
      · exact ih h
    · cases hr : splitSegs rest with
      | nil => exact absurd hr (splitSegs_ne_nil rest)
      | cons t ts =>
        simp [splitSegs, hc, hr] at h
        rcases h with h | h
        · subst h
          intro hm
          rcases List.mem_cons.mp hm with h | h
          · exact hc h.symm
          · exact ih (by simp [hr]) h
        · exact ih (by simp [hr, h])

lemma hasDotDot_cons {l : List Char} (c : Char) (h : hasDotDot l = true) :
    hasDotDot (c :: l) = true := by
  cases l with
  | nil => simp [hasDotDot] at h
  | cons b r =>
    by_cases hb : c = '.' ∧ b = '.'
    · simp [hasDotDot, hb]
    · simp [hasDotDot, hb, h]

lemma hasDotDot_of_dotdot_mem {l : List Char} (h : ['.', '.'] ∈ splitSegs l) :
    hasDotDot l = true := by
  induction l with
  | nil => simp [splitSegs] at h
  | cons c rest ih =>
    by_cases hc : c = '/'
    · simp [splitSegs, hc] at h
      exact hasDotDot_cons c (ih h)
    · cases hr : splitSegs rest with
      | nil => exact absurd hr (splitSegs_ne_nil rest)
      | cons t ts =>
        rw [splitSegs] at h
        simp only [if_neg hc, hr] at h
        rcases List.mem_cons.mp h with h | h
        · have hcd : c = '.' ∧ t = ['.'] := by
            injection h with h3 h4
            exact ⟨h3.symm, h4.symm⟩
          obtain ⟨u, hu⟩ := splitSegs_head_prefix hr
          rw [hcd.2] at hu
          simp at hu
          rw [hcd.1, ← hu]
          simp [hasDotDot]
        · exact hasDotDot_cons c (ih (by simp [hr, h]))

lemma ne_dotdot_of_not_hasDotDot {l : List Char} (h : hasDotDot l = false) :
    ∀ s ∈ splitSegs l, s ≠ ['.', '.'] := by
  intro s hs he
  subst he
  rw [hasDotDot_of_dotdot_mem hs] at h
  cases h

lemma splitSegs_append_cons (a b : List Char) :
    splitSegs (a ++ '/' :: b) = splitSegs a ++ splitSegs b := by
  induction a with
  | nil => simp [splitSegs]
  | cons c a ih =>
    by_cases hc : c = '/'
    · simp [splitSegs, hc, ih]
    · cases hr : splitSegs a with
      | nil => exact absurd hr (splitSegs_ne_nil a)
      | cons t ts =>
        have h2 : splitSegs (a ++ '/' :: b) = t :: (ts ++ splitSegs b) := by
          rw [ih, hr]; simp
        simp [splitSegs, hc, hr, h2]

lemma splitSegs_append_slash (a : List Char) :
    splitSegs (a ++ ['/']) = splitSegs a ++ [[]] := by
  have := splitSegs_append_cons a []
  simpa [splitSegs] using this

lemma splitSegs_noslash {s : List Char} (h : '/' ∉ s) : splitSegs s = [s] := by
  induction s with
  | nil => simp [splitSegs]
  | cons c cs ih =>
    have hc : ¬ c = '/' := fun he => h (by simp [he])
    have hcs : '/' ∉ cs := fun hm => h (by simp [hm])
    simp [splitSegs, hc, ih hcs]

lemma normFold_append (a : Bool) (st : List (List Char)) (i j : List (List Char)) :
    normFold a st (i ++ j) = normFold a (normFold a st i) j := by
  induction i generalizing st with
  | nil => simp [normFold]
  | cons s r ih => simp [normFold, ih]

/-- Drop empty and `.` segments; what `normFold` does to a segment list
containing no `..` segment. -/
def cleaned : List (List Char) → List (List Char)
  | [] => []
  | s :: r => if s = [] ∨ s = ['.'] then cleaned r else s :: cleaned r

lemma normFold_no_dotdot {j : List (List Char)} (hj : ∀ s ∈ j, s ≠ ['.', '.'])
    (st : List (List Char)) :
    normFold false st j = (cleaned j).reverse ++ st := by
  induction j generalizing st with
  | nil => simp [normFold, cleaned]
  | cons s r ih =>
    by_cases hs : s = [] ∨ s = ['.']
    · have : normPush false st s = st := by simp [normPush, hs]
      simp [normFold, this, cleaned, hs, ih (fun x hx => hj x (by simp [hx]))]
    · have hdd : ¬ s = ['.', '.'] := hj s (by simp)
      have : normPush false st s = s :: st := by simp [normPush, hs, hdd]
      rw [normFold, this, ih (fun x hx => hj x (by simp [hx]))]
      simp [cleaned, hs]

lemma cleaned_eq_self {j : List (List Char)} (hj : ∀ s ∈ j, ¬(s = [] ∨ s = ['.'])) :
    cleaned j = j := by
  induction j with
  | nil => rfl
  | cons s r ih =>
    have hs := hj s (by simp)
    simp [cleaned, hs, ih (fun x hx => hj x (by simp [hx]))]

lemma mem_cleaned {j : List (List Char)} {s : List Char} (h : s ∈ cleaned j) :
    s ∈ j ∧ ¬(s = [] ∨ s = ['.']) := by
  induction j with
  | nil => simp [cleaned] at h
  | cons t r ih =>
    by_cases ht : t = [] ∨ t = ['.']
    · simp [cleaned, ht] at h
      have := ih h
      exact ⟨by simp [this.1], this.2⟩
    · simp [cleaned, ht] at h
      rcases h with h | h
      · subst h
        exact ⟨by simp, ht⟩
      · have := ih h
        exact ⟨by simp [this.1], this.2⟩

lemma joinWith_append (c : Char) {j k : List (List Char)} (hj : j ≠ []) (hk : k ≠ []) :
    joinWith c (j ++ k) = joinWith c j ++ c :: joinWith c k := by
  induction j with
  | nil => exact absurd rfl hj
  | cons s r ih =>
    cases r with
    | nil =>
      cases k with
      | nil => exact absurd rfl hk
      | cons t u => simp [joinWith]
    | cons t u =>
      have h2 : joinWith c ((s :: t :: u) ++ k) = s ++ c :: joinWith c ((t :: u) ++ k) := by
        simp [joinWith]
      rw [h2, ih (by simp)]
      simp [joinWith]

lemma splitSegs_joinWith {j : List (List Char)} (hj : j ≠ [])
    (hgood : ∀ s ∈ j, s ≠ [] ∧ '/' ∉ s) :
    splitSegs (joinWith '/' j) = j := by
  induction j with
  | nil => exact absurd rfl hj
  | cons s r ih =>
    cases r with
    | nil =>
      simp [joinWith, splitSegs_noslash (hgood s (by simp)).2]
    | cons t u =>
      have h2 : joinWith '/' (s :: t :: u) = s ++ '/' :: joinWith '/' (t :: u) := by
        simp [joinWith]
      rw [h2, splitSegs_append_cons, splitSegs_noslash (hgood s (by simp)).2,
        ih (by simp) (fun x hx => hgood x (by simp [hx]))]
      simp

/-- A fully normalized path segment: non-empty, not a dot segment, no
embedded separator. -/
def goodSeg (s : List Char) : Prop :=
  s ≠ [] ∧ s ≠ ['.'] ∧ s ≠ ['.', '.'] ∧ '/' ∉ s

lemma popDotDot_mem {a : Bool} {st : List (List Char)} {x : List Char}
    (h : x ∈ popDotDot a st) : x ∈ st ∨ x = ['.', '.'] := by
  cases st with
  | nil =>
    rw [popDotDot] at h
    by_cases ha : a = true
    · rw [if_pos ha] at h
      exact Or.inr (by simpa using h)
    · rw [if_neg ha] at h
      simp at h
  | cons t ts =>
    rw [popDotDot] at h
    by_cases ht : t = ['.', '.']
    · rw [if_pos ht] at h
      by_cases ha : a = true
      · rw [if_pos ha] at h
        rcases List.mem_cons.mp h with h | h
        · exact Or.inr h
        · exact Or.inl h
      · rw [if_neg ha] at h
        exact Or.inl h
    · rw [if_neg ht] at h
      exact Or.inl (List.mem_cons_of_mem t h)

lemma popDotDot_false_mem {st : List (List Char)} {x : List Char}
    (h : x ∈ popDotDot false st) : x ∈ st := by
  cases st with
  | nil =>
    rw [popDotDot, if_neg (by simp)] at h
    simp at h
  | cons t ts =>
    rw [popDotDot] at h
    by_cases ht : t = ['.', '.']
    · rw [if_pos ht, if_neg (by simp)] at h
      exact h
    · rw [if_neg ht] at h
      exact List.mem_cons_of_mem t h

lemma normPush_mem {a : Bool} {st : List (List Char)} {s x : List Char}
    (h : x ∈ normPush a st s) : x ∈ st ∨ (x = s ∧ ¬(s = [] ∨ s = ['.'])) := by
  by_cases hs : s = [] ∨ s = ['.']
  · simp only [normPush, if_pos hs] at h
    exact Or.inl h
  · by_cases hdd : s = ['.', '.']
    · simp only [normPush, if_neg hs, if_pos hdd] at h
      rcases popDotDot_mem h with h | h
      · exact Or.inl h
      · exact Or.inr ⟨by rw [h, hdd], hs⟩
    · simp only [normPush, if_neg hs, if_neg hdd] at h
      rcases List.mem_cons.mp h with h | h
      · exact Or.inr ⟨h, hs⟩
      · exact Or.inl h

lemma normPush_mem_false {st : List (List Char)} {s x : List Char}
    (h : x ∈ normPush false st s) :
    x ∈ st ∨ (x = s ∧ ¬(s = [] ∨ s = ['.']) ∧ s ≠ ['.', '.']) := by
  by_cases hdd : s = ['.', '.']
  · by_cases hs : s = [] ∨ s = ['.']
    · simp only [normPush, if_pos hs] at h
      exact Or.inl h
    · simp only [normPush, if_neg hs, if_pos hdd] at h
      exact Or.inl (popDotDot_false_mem h)
  · rcases normPush_mem h with h | h
    · exact Or.inl h
    · exact Or.inr ⟨h.1, h.2, h.1 ▸ hdd⟩

lemma normFold_ok {a : Bool} {st j : List (List Char)}
    (hst : ∀ x ∈ st, x ≠ [] ∧ '/' ∉ x) (hj : ∀ s ∈ j, '/' ∉ s) :
    ∀ x ∈ normFold a st j, x ≠ [] ∧ '/' ∉ x := by
  induction j generalizing st with
  | nil => simpa [normFold] using hst
  | cons s r ih =>
    rw [normFold]
    refine ih (fun x hx => ?_) (fun t ht => hj t (by simp [ht]))
    rcases normPush_mem hx with h | ⟨rfl, hs⟩
    · exact hst x h
    · exact ⟨fun he => hs (Or.inl he), hj x (by simp)⟩

lemma normFold_good {st j : List (List Char)}
    (hst : ∀ x ∈ st, goodSeg x) (hj : ∀ s ∈ j, '/' ∉ s) :
    ∀ x ∈ normFold false st j, goodSeg x := by
  induction j generalizing st with
  | nil => simpa [normFold] using hst
  | cons s r ih =>
    rw [normFold]
    refine ih (fun x hx => ?_) (fun t ht => hj t (by simp [ht]))
    rcases normPush_mem_false hx with h | ⟨rfl, hs, hdd⟩
    · exact hst x h
    · exact ⟨fun he => hs (Or.inl he), fun he => hs (Or.inr he), hdd, hj x (by simp)⟩

lemma normSegs_good {p : List Char} :
    ∀ x ∈ normSegs false (splitSegs p), goodSeg x := by
  intro x hx
  rw [normSegs, List.mem_reverse] at hx
  exact normFold_good (fun y hy => absurd hy (List.not_mem_nil y))
    (fun s hs => noslash_of_mem_splitSegs hs) x hx

lemma normSegs_ok {a : Bool} {p : List Char} :
    ∀ x ∈ normSegs a (splitSegs p), x ≠ [] ∧ '/' ∉ x := by
  intro x hx
  rw [normSegs, List.mem_reverse] at hx
  exact normFold_ok (fun y hy => absurd hy (List.not_mem_nil y))
    (fun s hs => noslash_of_mem_splitSegs hs) x hx

lemma pathNormalize_ne_nil (p : List Char) : pathNormalize p ≠ [] := by
  rw [pathNormalize]
  by_cases hp : p = []
  · simp [hp]
  · simp only [if_neg hp]
    by_cases ha : isAbsolute p = true
    · simp only [ha, Bool.not_true]
      by_cases hc : joinWith '/' (normSegs false (splitSegs p)) = []
      · simp [hc]
      · by_cases ht : p.getLast? = some '/' <;> simp [hc, ht]
    · rw [Bool.not_eq_true] at ha
      simp only [ha, Bool.not_false]
      by_cases hc : joinWith '/' (normSegs true (splitSegs p)) = []
      · by_cases ht : p.getLast? = some '/' <;> simp [hc, ht]
      · by_cases ht : p.getLast? = some '/' <;> simp [hc, ht]

lemma isAbsolute_pathNormalize {p : List Char} (h : isAbsolute p = true) :
    isAbsolute (pathNormalize p) = true := by
  have hp : p ≠ [] := by
    cases p with
    | nil => simp [isAbsolute] at h
    | cons c r => simp
  rw [pathNormalize]
  simp only [if_neg hp, h, Bool.not_true]
  by_cases hc : joinWith '/' (normSegs false (splitSegs p)) = []
  · simp [hc, isAbsolute]
  · by_cases ht : p.getLast? = some '/' <;> simp [hc, ht, isAbsolute]

lemma isAbsolute_pathNormalize_rel {p : List Char} (h : isAbsolute p = false) :
    isAbsolute (pathNormalize p) = false := by
  by_cases hp : p = []
  · simp [hp, pathNormalize, isAbsolute]
  · rw [pathNormalize]
    simp only [if_neg hp, h, Bool.not_false]
    cases hs : normSegs true (splitSegs p) with
    | nil =>
      by_cases ht : p.getLast? = some '/' <;> simp [ht, joinWith, isAbsolute]
    | cons s r =>
      have hok : s ≠ [] ∧ '/' ∉ s := @normSegs_ok true p s (by simp [hs])
      obtain ⟨c, cs, rfl⟩ : ∃ c cs, s = c :: cs := by
        cases s with
        | nil => exact absurd rfl hok.1
        | cons c cs => exact ⟨c, cs, rfl⟩
      have hcne : ¬ c = '/' := fun he => hok.2 (by simp [he])
      obtain ⟨tail, htail⟩ : ∃ tail, joinWith '/' ((c :: cs) :: r) = c :: tail := by
        cases r with
        | nil => exact ⟨cs, by simp [joinWith]⟩
        | cons t u => exact ⟨cs ++ '/' :: joinWith '/' (t :: u), by simp [joinWith]⟩
      rw [htail]
      have hne : (c :: tail : List Char) ≠ [] := by simp
      rw [if_neg hne]
      by_cases ht : p.getLast? = some '/' <;> simp [ht, isAbsolute, hcne]

lemma getLast?_append_ne {α : Type} {a b : List α} (hb : b ≠ []) :
    (a ++ b).getLast? = b.getLast? := by
  induction a with
  | nil => simp
  | cons c a ih =>
    rw [List.cons_append]
    cases hab : a ++ b with
    | nil =>
      rcases List.append_eq_nil.mp hab with ⟨h1, h2⟩
      exact absurd h2 hb
    | cons x xs =>
      rw [List.getLast?_cons_cons, ← hab, ih]

lemma normSegs_cons_empty (a : Bool) (j : List (List Char)) :
    normSegs a ([] :: j) = normSegs a j := by
  rw [normSegs, normSegs, normFold]
  simp [normPush]

lemma normSegs_append_empty (a : Bool) (j : List (List Char)) :
    normSegs a (j ++ [[]]) = normSegs a j := by
  rw [normSegs, normSegs, normFold_append]
  simp [normFold, normPush]

lemma normSegs_self {segs : List (List Char)} (hgood : ∀ s ∈ segs, goodSeg s) :
    normSegs false segs = segs := by
  rw [normSegs, normFold_no_dotdot (fun s hs => (hgood s hs).2.2.1)]
  rw [cleaned_eq_self (fun s hs hor => hor.elim (hgood s hs).1 (hgood s hs).2.1)]
  simp

lemma normSegs_append_no_dotdot {j : List (List Char)} (i : List (List Char))
    (hj : ∀ s ∈ j, s ≠ ['.', '.']) :
    normSegs false (i ++ j) = normSegs false i ++ cleaned j := by
  rw [normSegs, normFold_append, normFold_no_dotdot hj]
  simp [normSegs]

lemma joinWith_cons_ne_nil {s : List Char} {rest : List (List Char)} (hs : s ≠ []) :
    joinWith '/' (s :: rest) ≠ [] := by
  cases rest with
  | nil => simpa [joinWith] using hs
  | cons t u => simp [joinWith]

lemma isPrefixOf_append_self (a b : List Char) : a.isPrefixOf (a ++ b) = true := by
  induction a with
  | nil => simp [List.isPrefixOf]
  | cons c a ih => simp [List.isPrefixOf, ih]

lemma pathResolve_abs {q : List Char} (cwd : List Char) (h : isAbsolute q = true) :
    pathResolve cwd q = '/' :: joinWith '/' (normSegs false (splitSegs q)) := by
  rw [pathResolve]
  simp only [h, Bool.true_or, Bool.not_true, if_true]
  rw [splitSegs_append_slash, normSegs_append_empty]

lemma pathResolve_slash_join (cwd : List Char) {segs : List (List Char)} (tail : List Char)
    (hgood : ∀ s ∈ segs, goodSeg s) (hne : segs ≠ [])
    (htail : tail = [] ∨ tail = ['/']) :
    pathResolve cwd (('/' :: joinWith '/' segs) ++ tail) = '/' :: joinWith '/' segs := by
  have h0 := splitSegs_joinWith hne (fun s hs => ⟨(hgood s hs).1, (hgood s hs).2.2.2⟩)
  rcases htail with rfl | rfl
  · rw [List.append_nil, pathResolve_abs cwd (by simp [isAbsolute])]
    have h1 : splitSegs ('/' :: joinWith '/' segs) = [] :: segs := by
      rw [splitSegs, if_pos rfl, h0]
    rw [h1, normSegs_cons_empty, normSegs_self hgood]
  · rw [pathResolve_abs cwd (by simp [isAbsolute])]
    have h1 : splitSegs (('/' :: joinWith '/' segs) ++ ['/']) = [] :: (segs ++ [[]]) := by
      rw [List.cons_append, splitSegs, if_pos rfl, splitSegs_append_slash, h0]
    rw [h1, normSegs_cons_empty, normSegs_append_empty, normSegs_self hgood]

lemma getFilePaths_success (cwd r p : List Char)
    (hnz : normSegs false (splitSegs ('/' :: r)) ≠ [])
    (hrel : isAbsolute p = false)
    (hdd : hasDotDot (pathNormalize p) = false) :
    ∃ fp, getFilePaths cwd ('/' :: r) p = some fp ∧
      (pathResolve cwd fp.fullPath = pathResolve cwd ('/' :: r) ∨
        (pathResolve cwd ('/' :: r) ++ ['/']).isPrefixOf (pathResolve cwd fp.fullPath) = true) ∧
      pathResolve cwd (pathResolve cwd fp.fullPath) = pathResolve cwd fp.fullPath := by
  obtain ⟨np, hnp⟩ : ∃ x, pathNormalize p = x := ⟨_, rfl⟩
  rw [hnp] at hdd
  obtain ⟨S, hS⟩ : ∃ x, normSegs false (splitSegs ('/' :: r)) = x := ⟨_, rfl⟩
  obtain ⟨C, hC⟩ : ∃ x, cleaned (splitSegs np) = x := ⟨_, rfl⟩
  rw [hS] at hnz
  have hSgood : ∀ s ∈ S, goodSeg s := by
    intro s hs
    exact normSegs_good s (by rw [hS]; exact hs)
  have hnodd : ∀ s ∈ splitSegs np, s ≠ ['.', '.'] := ne_dotdot_of_not_hasDotDot hdd
  have hCgood : ∀ s ∈ C, goodSeg s := by
    intro s hs
    have hs2 : s ∈ cleaned (splitSegs np) := by rw [hC]; exact hs
    obtain ⟨hmem, hno⟩ := mem_cleaned hs2
    exact ⟨fun h => hno (Or.inl h), fun h => hno (Or.inr h), hnodd s hmem,
      noslash_of_mem_splitSegs hmem⟩
  have hSCgood : ∀ s ∈ S ++ C, goodSeg s := by
    intro s hs
    rcases List.mem_append.mp hs with h | h
    · exact hSgood s h
    · exact hCgood s h
  have hSCne : (S ++ C : List (List Char)) ≠ [] := by
    intro h
    exact hnz (List.append_eq_nil.mp h).1
  have hnpabs : isAbsolute np = false := by
    rw [← hnp]
    exact isAbsolute_pathNormalize_rel hrel
  have hnpne : np ≠ [] := by
    rw [← hnp]
    exact pathNormalize_ne_nil p
  have hne2 : (('/' :: r) ++ '/' :: np : List Char) ≠ [] := by simp
  have habs2 : isAbsolute (('/' :: r) ++ '/' :: np) = true := by simp [isAbsolute]
  have htrail : (('/' :: r) ++ '/' :: np).getLast? = np.getLast? := by
    rw [getLast?_append_ne (by simp : ('/' :: np : List Char) ≠ [])]
    exact @getLast?_append_ne Char ['/'] np hnpne
  have hsegs2 : normSegs false (splitSegs (('/' :: r) ++ '/' :: np)) = S ++ C := by
    rw [splitSegs_append_cons, normSegs_append_no_dotdot _ hnodd, hS, hC]
  have hcorene : joinWith '/' (S ++ C) ≠ [] := by
    obtain ⟨s0, S1, hS0⟩ : ∃ s0 S1, S = s0 :: S1 := by
      cases hS0 : S with
      | nil => exact absurd hS0 hnz
      | cons a b => exact ⟨a, b, rfl⟩
    have hs0 : s0 ≠ [] := (hSgood s0 (by rw [hS0]; simp)).1
    rw [hS0, List.cons_append]
    exact joinWith_cons_ne_nil hs0
  have hfull : pathJoin ('/' :: r) np =
      ('/' :: joinWith '/' (S ++ C)) ++ (if np.getLast? = some '/' then ['/'] else []) := by
    rw [pathJoin, if_neg (by simp : ('/' :: r : List Char) ≠ []), if_neg hnpne]
    rw [pathNormalize, if_neg hne2]
    simp only [habs2, Bool.not_true, htrail, hsegs2]
    rw [if_neg hcorene]
    simp
  have hRP : pathResolve cwd (pathJoin ('/' :: r) np) = '/' :: joinWith '/' (S ++ C) := by
    rw [hfull]
    exact pathResolve_slash_join cwd _ hSCgood hSCne
      (by by_cases ht : np.getLast? = some '/' <;> simp [ht])
  have hRB : pathResolve cwd ('/' :: r) = '/' :: joinWith '/' S := by
    rw [pathResolve_abs cwd (by simp [isAbsolute]), hS]
  have hIdem : pathResolve cwd ('/' :: joinWith '/' (S ++ C)) = '/' :: joinWith '/' (S ++ C) := by
    have h := pathResolve_slash_join cwd [] hSCgood hSCne (Or.inl rfl)
    simpa using h
  have hcond2 : (('/' :: joinWith '/' S ++ ['/']).isPrefixOf ('/' :: joinWith '/' (S ++ C)) = true)
      ∨ ('/' :: joinWith '/' (S ++ C)) = '/' :: joinWith '/' S := by
    by_cases hC0 : C = []
    · right
      rw [hC0, List.append_nil]
    · left
      have heq : ('/' :: joinWith '/' (S ++ C)) =
          (('/' :: joinWith '/' S) ++ ['/']) ++ joinWith '/' C := by
        rw [joinWith_append '/' hnz hC0]
        simp
      rw [heq]
      exact isPrefixOf_append_self _ _
  have hc1 : (('/' :: r).all isJsWs) = false := by
    have hws : isJsWs '/' = false := by decide
    simp [hws]
  have hc2 : (hasDotDot np || isAbsolute np) = false := by
    rw [hdd, hnpabs]
    rfl
  refine ⟨⟨pathJoin ('/' :: r) np, pathDirname (pathJoin ('/' :: r) np)⟩, ?_, ?_, ?_⟩
  · rw [getFilePaths]
    simp only [hc1, Bool.false_eq_true, if_false]
    simp only [hnp, hc2, Bool.false_eq_true, if_false]
    rw [hRP, hRB]
    rw [if_pos (by rcases hcond2 with h | h; exacts [Or.inl h, Or.inr h])]
  · show pathResolve cwd (pathJoin ('/' :: r) np) = pathResolve cwd ('/' :: r) ∨
      (pathResolve cwd ('/' :: r) ++ ['/']).isPrefixOf
        (pathResolve cwd (pathJoin ('/' :: r) np)) = true
    rw [hRP, hRB]
    rcases hcond2 with h | h
    · exact Or.inr h
    · exact Or.inl h
  · show pathResolve cwd (pathResolve cwd (pathJoin ('/' :: r) np))
      = pathResolve cwd (pathJoin ('/' :: r) np)
    rw [hRP]
    exact hIdem

/-- C1: for every string x, outer-layer-escaping the shell-quoted form of
x (as done when embedding the shell command in the AppleScript `do script`
literal), undoing the outer layer's string-literal escaping, and then
interpreting the result under POSIX shell quoting rules yields exactly one
argument equal to x. -/
theorem c1_outer_shell_roundtrip (x : List Char) :
    shellSplit (outerUnescape (outerLayerEscape (escapeShellArg x))) = some [x] := by
  rw [outerLayerEscape_eq_escOuter, outerUnescape_escOuter]
  exact shellSplit_escapeShellArg x

/-- C8: for the input `User's Guide.md`, `escapeShellArg` returns exactly
the token with each embedded single quote replaced by the four-character
close/escape/reopen sequence, and interpreting that token under POSIX
shell quoting rules yields the single literal argument `User's
Guide.md`. -/
theorem c8_single_quote_scenario :
    escapeShellArg (toL "User" ++ qc :: toL "s Guide.md")
      = qc :: toL "User" ++ [qc, bsc, qc, qc] ++ toL "s Guide.md" ++ [qc] ∧
    shellSplit (qc :: toL "User" ++ [qc, bsc, qc, qc] ++ toL "s Guide.md" ++ [qc])
      = some [toL "User" ++ qc :: toL "s Guide.md"] :=
  ⟨by decide, by decide⟩

/-- C2: for every relative path whose normalized form contains a
parent-directory `..` segment, and for every absolute path, `getFilePaths`
returns `none` (Rejected) whatever the working directory and vault base
path are; the embedding is a total function, so no exception can
escape. -/
theorem c2_traversal_and_absolute_rejected (cwd root p : List Char)
    (h : ['.', '.'] ∈ splitSegs (pathNormalize p) ∨ isAbsolute p = true) :
    getFilePaths cwd root p = none := by
  have hbad : (hasDotDot (pathNormalize p) || isAbsolute (pathNormalize p)) = true := by
    rcases h with h | h
    · rw [hasDotDot_of_dotdot_mem h]
      rfl
    · rw [isAbsolute_pathNormalize h]
      simp
  rw [getFilePaths]
  by_cases hws : (root.all isJsWs) = true
  · rw [if_pos hws]
  · rw [if_neg hws, if_pos hbad]

/-- Witness for C2 at the concrete traversal input `../outside.md`. -/
theorem c2_witness :
    (['.', '.'] ∈ splitSegs (pathNormalize (toL "../outside.md")) ∨
      isAbsolute (toL "../outside.md") = true) ∧
    getFilePaths (toL "/w") (toL "/Users/a/Vault") (toL "../outside.md") = none :=
  ⟨by decide, c2_traversal_and_absolute_rejected _ _ _ (by decide)⟩

/-- C10: `getFilePaths` rejects every file path whose normalized form
contains two consecutive dots anywhere, even inside a single name that is
not a parent-traversal segment, so such in-vault documents can never be
launched. -/
theorem c10_dotdot_substring_rejected (cwd root p : List Char)
    (h : hasDotDot (pathNormalize p) = true) :
    getFilePaths cwd root p = none := by
  rw [getFilePaths]
  by_cases hws : (root.all isJsWs) = true
  · rw [if_pos hws]
  · rw [if_neg hws,
      if_pos (show (hasDotDot (pathNormalize p) || isAbsolute (pathNormalize p)) = true by
        rw [h]; rfl)]

/-- Witness for C10: `report..final.md` is relative, has no traversal
segment, and is rejected. -/
theorem c10_witness :
    hasDotDot (pathNormalize (toL "report..final.md")) = true ∧
    isAbsolute (toL "report..final.md") = false ∧
    (['.', '.'] ∉ splitSegs (pathNormalize (toL "report..final.md"))) ∧
    getFilePaths (toL "/w") (toL "/Users/a/Vault") (toL "report..final.md") = none :=
  ⟨by decide, by decide, by decide, c10_dotdot_substring_rejected _ _ _ (by decide)⟩

/-- Counterexample to C3 as stated: `notes..old.md` is relative and
contains no parent-traversal segment after normalization, yet
`getFilePaths` rejects it instead of succeeding. -/
theorem c3_counterexample :
    isAbsolute (toL "notes..old.md") = false ∧
    (['.', '.'] ∉ splitSegs (pathNormalize (toL "notes..old.md"))) ∧
    getFilePaths (toL "/w") (toL "/Users/a/Vault") (toL "notes..old.md") = none :=
  ⟨by decide, by decide, by decide⟩

/-- C3 (amended): for every relative path whose normalized form contains
no two consecutive dots (a stronger requirement than containing no `..`
traversal segment), and every absolute vault root with at least one
surviving path segment, `getFilePaths` succeeds; the resolved full path
equals the resolved root or begins with it followed by the separator, and
resolving the resolved path again does not change it. -/
theorem c3_amended (cwd root p : List Char)
    (hroot : isAbsolute root = true)
    (hnz : normSegs false (splitSegs root) ≠ [])
    (hrel : isAbsolute p = false)
    (hdd : hasDotDot (pathNormalize p) = false) :
    ∃ fp, getFilePaths cwd root p = some fp ∧
      (pathResolve cwd fp.fullPath = pathResolve cwd root ∨
        (pathResolve cwd root ++ ['/']).isPrefixOf (pathResolve cwd fp.fullPath) = true) ∧
      pathResolve cwd (pathResolve cwd fp.fullPath) = pathResolve cwd fp.fullPath := by
  obtain ⟨r, rfl⟩ : ∃ r, root = '/' :: r := by
    cases root with
    | nil => simp [isAbsolute] at hroot
    | cons c rest =>
      have hc : c = '/' := by simpa [isAbsolute] using hroot
      exact ⟨rest, by rw [hc]⟩
  exact getFilePaths_success cwd r p hnz hrel hdd

/-- Witness for the amended C3 at root `/Users/a/Vault` and relative path
`Notes/x.md`. -/
theorem c3_amended_witness :
    isAbsolute (toL "/Users/a/Vault") = true ∧
    hasDotDot (pathNormalize (toL "Notes/x.md")) = false ∧
    (∃ fp, getFilePaths (toL "/w") (toL "/Users/a/Vault") (toL "Notes/x.md") = some fp ∧
      (pathResolve (toL "/w") fp.fullPath = pathResolve (toL "/w") (toL "/Users/a/Vault") ∨
        (pathResolve (toL "/w") (toL "/Users/a/Vault") ++ ['/']).isPrefixOf
          (pathResolve (toL "/w") fp.fullPath) = true) ∧
      pathResolve (toL "/w") (pathResolve (toL "/w") fp.fullPath)
        = pathResolve (toL "/w") fp.fullPath) :=
  ⟨by decide, by decide,
    c3_amended (toL "/w") (toL "/Users/a/Vault") (toL "Notes/x.md")
      (by decide) (by decide) (by decide) (by decide)⟩

/-- `isValidBinaryName` (src/main.ts lines 108-112): the regular
expression `^[a-zA-Z0-9_-]+$` — one or more ASCII letters, digits,
underscores or hyphens. -/
def isValidBinaryName (name : List Char) : Bool :=
  !name.isEmpty && name.all (fun c => c.isAlpha || c.isDigit || c = '_' || c = '-')

/-- The hardcoded candidate binary names (src/main.ts line 115). -/
def binaryNames : List (List Char) := [toL "claude-code", toL "claude"]

/-- The well-known install directory prefixes (src/main.ts lines 116-120),
parameterized by the `USER` environment variable. -/
def locationList (user : List Char) : List (List Char) :=
  [toL "/usr/local/bin/", toL "/Users/" ++ user ++ toL "/.local/bin/",
    toL "/opt/homebrew/bin/"]

/-- Environment visible to binary detection: the `USER` variable, the
filesystem existence test, and the outcome of `exec("which <name>")` —
`none` models a rejected exec promise (non-zero exit), `some out` the
captured stdout. -/
structure DetectEnv where
  user : List Char
  fsExists : List Char → Bool
  whichOut : List Char → Option (List Char)

/-- JavaScript `String.prototype.trim` (ASCII whitespace). -/
def trimChars (l : List Char) : List Char :=
  ((l.dropWhile isJsWs).reverse.dropWhile isJsWs).reverse

/-- Validation of a `which` result (src/main.ts lines 149-154): trim the
stdout and accept it only when non-empty, free of embedded newlines and
absolute. -/
def whichAccept (out : List Char) : Option (List Char) :=
  let foundPath := trimChars out
  if foundPath ≠ [] ∧ ¬ foundPath.contains nlc ∧ isAbsolute foundPath = true then
    some foundPath
  else none

/-- Inner loop of the known-location scan (src/main.ts lines 131-140):
skip invalid names, return the first `pattern + binary` that exists on the
filesystem. -/
def scanNames (env : DetectEnv) (pat : List Char) : List (List Char) → Option (List Char)
  | [] => none
  | b :: bs =>
    if isValidBinaryName b && env.fsExists (pat ++ b) then some (pat ++ b)
    else scanNames env pat bs

/-- Outer loop of the known-location scan over the directory prefixes. -/
def scanLocations (env : DetectEnv) (names : List (List Char)) :
    List (List Char) → Option (List Char)
  | [] => none
  | pat :: rest =>
    match scanNames env pat names with
    | some p => some p
    | none => scanLocations env names rest

/-- PATH scan (src/main.ts lines 143-158): for each valid candidate name
run `which <name>` via exec and accept a validated result; a failed exec
or a malformed output falls through to the next candidate.  The second
component records every command passed to exec, in order. -/
def scanPath (env : DetectEnv) : List (List Char) → Option (List Char) × List (List Char)
  | [] => (none, [])
  | b :: bs =>
    if isValidBinaryName b then
      match (env.whichOut b).bind whichAccept with
      | some p => (some p, [toL "which " ++ b])
      | none =>
        let rest := scanPath env bs
        (rest.1, (toL "which " ++ b) :: rest.2)
    else scanPath env bs

/-- `detectClaudeCode` (src/main.ts lines 114-161), generalized over the
candidate-name list its loops run over: probe the well-known locations via
the filesystem (no process spawned), then fall back to `which` lookups on
the search path.  The second component is the list of commands passed to
the process-spawning exec primitive. -/
def detectClaudeCodeWith (env : DetectEnv) (names : List (List Char)) :
    Option (List Char) × List (List Char) :=
  match scanLocations env names (locationList env.user) with
  | some p => (some p, [])
  | none => scanPath env names

/-- `detectClaudeCode` with the hardcoded candidate list. -/
def detectClaudeCode (env : DetectEnv) : Option (List Char) × List (List Char) :=
  detectClaudeCodeWith env binaryNames

/-- The plugin's mutable fields (src/main.ts lines 11-12). -/
structure PluginState where
  claudeCodePath : Option (List Char)
  detectionAttempted : Bool
deriving DecidableEq, Repr

/-- The state at plugin load. -/
def initState : PluginState := ⟨none, false⟩

/-- Result of one `getClaudeCodePath` call: the returned value, the state
afterwards, how many times the probing logic ran, and the exec trace. -/
structure LocateResult where
  result : Option (List Char)
  state : PluginState
  detectRuns : Nat
  execCalls : List (List Char)
deriving DecidableEq, Repr

/-- `getClaudeCodePath` (src/main.ts lines 98-106): once detection has
been attempted, return the cached value (even a cached `none`) without
probing; otherwise set the flag, run detection once and cache its
result. -/
def getClaudeCodePath (env : DetectEnv) (s : PluginState) : LocateResult :=
  if s.detectionAttempted then ⟨s.claudeCodePath, s, 0, []⟩
  else
    let d := detectClaudeCode env
    ⟨d.1, ⟨d.1, true⟩, 1, d.2⟩

/-- The shell command built by `launchTerminal` (src/main.ts lines
171-177): the five tokens joined by single spaces. -/
def buildShellCommand (claudePath dir notePath : List Char) : List Char :=
  joinWith ' ' [toL "cd", escapeShellArg dir, toL "&&", escapeShellArg claudePath,
    escapeShellArg ('@' :: notePath)]

/-- Observable events of one `launchTerminal` run, in order. -/
inductive LaunchEvent where
  | writeTemp
  | runOsascript
  | deleteTemp
  | deleteFailedLogged
deriving DecidableEq, Repr

/-- Outcome of one `launchTerminal` run: the promise result, the ordered
event trace, the command passed to exec (if any), and the shell command
the launcher built. -/
structure LaunchOut where
  result : Except (List Char) Unit
  events : List LaunchEvent
  execCmd : Option (List Char)
  shellCommand : List Char

/-- `launchTerminal` (src/main.ts lines 169-221): build the shell command,
write the AppleScript to a temp file — a write failure throws the wrapped
write error and nothing is executed — then exec `osascript "<tempFile>"`;
in the exit callback first attempt to delete the temp file, logging but
never propagating a deletion failure, then reject with the reported exec
error or resolve.  `writeError` and `osaErr` are `some e` when the
corresponding operation fails with message `e`. -/
def launchTerminal (claudePath dir notePath tempFile : List Char)
    (writeError : Option (List Char)) (osaErr : Option (List Char))
    (unlinkFails : Bool) : LaunchOut :=
  let cmd := buildShellCommand claudePath dir notePath
  match writeError with
  | some m =>
    { result := Except.error (toL "Failed to write AppleScript temp file: " ++ m)
      events := []
      execCmd := none
      shellCommand := cmd }
  | none =>
    { result := match osaErr with
        | none => Except.ok ()
        | some e => Except.error e
      events := [LaunchEvent.writeTemp, LaunchEvent.runOsascript] ++
        (if unlinkFails then [LaunchEvent.deleteFailedLogged] else [LaunchEvent.deleteTemp])
      execCmd := some (toL "osascript " ++ dqc :: tempFile ++ [dqc])
      shellCommand := cmd }

/-- An Obsidian file as the plugin consumes it: a vault-relative path and
an extension tag. -/
structure ObsFile where
  path : List Char
  extension : List Char
deriving DecidableEq, Repr

/-- Environment of one invocation: the detection environment, the active
file (if any), the vault base path, the working directory, and the fates
of the temp-file write, the osascript exec and the temp-file deletion. -/
structure AppEnv where
  detect : DetectEnv
  activeFile : Option ObsFile
  basePath : List Char
  cwd : List Char
  tempFile : List Char
  writeError : Option (List Char)
  osaErr : Option (List Char)
  unlinkFails : Bool

/-- Observable outcome of one `openInClaudeCode` invocation. -/
structure InvokeOut where
  state : PluginState
  notices : List (List Char)
  execCalls : List (List Char)
  osascriptRuns : Nat

/-- Notice shown when there is no active file. -/
def noticeNoFile : List Char := toL "No active file"

/-- Notice shown when the active file is not markdown. -/
def noticeNotMd : List Char := toL "Active file is not a markdown file"

/-- Notice shown when the binary is not found. -/
def noticeNotFound : List Char :=
  toL "Claude Code CLI not found. Install from https://docs.anthropic.com/claude-code"

/-- Notice shown when path validation rejects the file. -/
def noticeBadPath : List Char :=
  toL "Invalid file path detected. Please check the file location."

/-- Prefix of the notice shown when the launch fails. -/
def noticeLaunchFail : List Char := toL "Failed to launch Claude Code: "

/-- `openInClaudeCode` (src/main.ts lines 22-46) together with
`getActiveMarkdownFile` (lines 48-62): each early return surfaces exactly
one notice; a launch rejection is caught and surfaced with the error
message appended; `execCalls` accumulates every command passed to exec
(the `which` lookups during first-time detection and the osascript
submission). -/
def openInClaudeCode (env : AppEnv) (s : PluginState) : InvokeOut :=
  (env.activeFile).elim ⟨s, [noticeNoFile], [], 0⟩ (fun file =>
    if file.extension ≠ toL "md" then ⟨s, [noticeNotMd], [], 0⟩
    else
      let lr := getClaudeCodePath env.detect s
      (lr.result).elim ⟨lr.state, [noticeNotFound], lr.execCalls, 0⟩ (fun claudePath =>
        (getFilePaths env.cwd env.basePath file.path).elim
          ⟨lr.state, [noticeBadPath], lr.execCalls, 0⟩ (fun fp =>
            let lo := launchTerminal claudePath fp.directory fp.fullPath env.tempFile
              env.writeError env.osaErr env.unlinkFails
            match lo.result with
            | Except.ok _ =>
              ⟨lr.state, [], lr.execCalls ++ lo.execCmd.toList, lo.execCmd.toList.length⟩
            | Except.error e =>
              ⟨lr.state, [noticeLaunchFail ++ e], lr.execCalls ++ lo.execCmd.toList,
                lo.execCmd.toList.length⟩)))

lemma scanPath_cons_valid_found {env : DetectEnv} {b p : List Char} {bs : List (List Char)}
    (hv : isValidBinaryName b = true) (hw : (env.whichOut b).bind whichAccept = some p) :
    scanPath env (b :: bs) = (some p, [toL "which " ++ b]) := by
  rw [scanPath, if_pos hv, hw]

lemma scanPath_cons_valid_miss {env : DetectEnv} {b : List Char} {bs : List (List Char)}
    (hv : isValidBinaryName b = true) (hw : (env.whichOut b).bind whichAccept = none) :
    scanPath env (b :: bs)
      = ((scanPath env bs).1, (toL "which " ++ b) :: (scanPath env bs).2) := by
  rw [scanPath, if_pos hv, hw]

lemma scanPath_cons_invalid {env : DetectEnv} {b : List Char} {bs : List (List Char)}
    (hv : isValidBinaryName b = false) :
    scanPath env (b :: bs) = scanPath env bs := by
  rw [scanPath, if_neg (by simp [hv])]

lemma scanPath_trace_shape (env : DetectEnv) :
    ∀ names : List (List Char), ∀ c ∈ (scanPath env names).2,
      ∃ b, b ∈ names ∧ isValidBinaryName b = true ∧ c = toL "which " ++ b := by
  intro names
  induction names with
  | nil =>
    intro c hc
    simp [scanPath] at hc
  | cons b bs ih =>
    intro c hc
    by_cases hv : isValidBinaryName b = true
    · cases hw : (env.whichOut b).bind whichAccept with
      | some p =>
        rw [scanPath_cons_valid_found hv hw] at hc
        simp at hc
        exact ⟨b, by simp, hv, hc⟩
      | none =>
        rw [scanPath_cons_valid_miss hv hw] at hc
        rcases List.mem_cons.mp hc with h | h
        · exact ⟨b, by simp, hv, h⟩
        · obtain ⟨b2, hb2, hvb2, hcb2⟩ := ih c h
          exact ⟨b2, by simp [hb2], hvb2, hcb2⟩
    · rw [Bool.not_eq_true] at hv
      rw [scanPath_cons_invalid hv] at hc
      obtain ⟨b2, hb2, hvb2, hcb2⟩ := ih c hc
      exact ⟨b2, by simp [hb2], hvb2, hcb2⟩

lemma list_append_left_cancel {a b c : List Char} (h : a ++ b = a ++ c) : b = c := by
  induction a with
  | nil => simpa using h
  | cons x xs ih =>
    rw [List.cons_append, List.cons_append] at h
    injection h with h1 h2
    exact ih h2

/-- C4: a candidate binary name that fails the `[A-Za-z0-9_-]+` pattern is
never passed to the process-spawning exec primitive — no `which` command
for it ever appears in the exec trace of detection, whatever the
environment and candidate list. -/
theorem c4_invalid_name_never_exec (env : DetectEnv) (names : List (List Char))
    (b : List Char) (h : isValidBinaryName b = false) :
    (toL "which " ++ b) ∉ (detectClaudeCodeWith env names).2 := by
  intro hmem
  rw [detectClaudeCodeWith] at hmem
  cases hl : scanLocations env names (locationList env.user) with
  | some q =>
    rw [hl] at hmem
    simp at hmem
  | none =>
    rw [hl] at hmem
    obtain ⟨b2, _, hv2, heq⟩ := scanPath_trace_shape env names _ hmem
    have hbb : b = b2 := list_append_left_cancel heq
    rw [← hbb] at hv2
    rw [h] at hv2
    cases hv2

/-- Environment for the C4 witness: nothing on the filesystem, every
`which` fails. -/
def c4Env : DetectEnv := ⟨toL "u", fun _ => false, fun _ => none⟩

/-- Witness for C4 at the invalid candidate name `ba d` (contains a
space). -/
theorem c4_witness :
    isValidBinaryName (toL "ba d") = false ∧
    (toL "which " ++ toL "ba d") ∉ (detectClaudeCodeWith c4Env [toL "ba d"]).2 :=
  ⟨by decide, c4_invalid_name_never_exec c4Env [toL "ba d"] (toL "ba d") (by decide)⟩

/-- C6: starting from the fresh state, `getClaudeCodePath` runs the
probing logic exactly once; it sets `detectionAttempted`, caches the
result, and every call on a state with `detectionAttempted` set returns
the cached `claudeCodePath` (even a cached `none`) without probing and
without spawning anything, so two sequential calls probe exactly once and
agree. -/
theorem c6_memoized_single_probe (env : DetectEnv) (p : Option (List Char)) :
    (getClaudeCodePath env initState).detectRuns = 1 ∧
    (getClaudeCodePath env initState).state.detectionAttempted = true ∧
    (getClaudeCodePath env initState).result = (detectClaudeCode env).1 ∧
    getClaudeCodePath env ⟨p, true⟩ = ⟨p, ⟨p, true⟩, 0, []⟩ ∧
    (getClaudeCodePath env (getClaudeCodePath env initState).state).detectRuns = 0 ∧
    (getClaudeCodePath env (getClaudeCodePath env initState).state).result
      = (getClaudeCodePath env initState).result ∧
    (getClaudeCodePath env initState).detectRuns
      + (getClaudeCodePath env (getClaudeCodePath env initState).state).detectRuns = 1 := by
  simp [getClaudeCodePath, initState]

/-- C9: when the temp-file write succeeds, `launchTerminal` resolves
exactly when the osascript process exits zero and rejects with that
process's reported error otherwise; in both cases the deletion of the
temp file is attempted after the submitting process exits, and a deletion
failure is logged while the result is unchanged (never propagated). -/
theorem c9_launch_result_and_cleanup (claudePath dir notePath tempFile : List Char)
    (osaErr : Option (List Char)) (unlinkFails : Bool) :
    ((launchTerminal claudePath dir notePath tempFile none osaErr unlinkFails).result
        = Except.ok () ↔ osaErr = none) ∧
    (launchTerminal claudePath dir notePath tempFile none osaErr unlinkFails).result
      = (match osaErr with
          | none => Except.ok ()
          | some e => (Except.error e : Except (List Char) Unit)) ∧
    (launchTerminal claudePath dir notePath tempFile none osaErr unlinkFails).events
      = [LaunchEvent.writeTemp, LaunchEvent.runOsascript] ++
        (if unlinkFails then [LaunchEvent.deleteFailedLogged] else [LaunchEvent.deleteTemp]) ∧
    (launchTerminal claudePath dir notePath tempFile none osaErr unlinkFails).result
      = (launchTerminal claudePath dir notePath tempFile none osaErr false).result := by
  refine ⟨?_, rfl, rfl, rfl⟩
  cases osaErr with
  | none => simp [launchTerminal]
  | some e => simp [launchTerminal]

/-- Active markdown file for the C5 scenario. -/
def c5File : ObsFile := ⟨toL "note.md", toL "md"⟩

/-- Environment for the C5 scenario: an active markdown file, and no
binary anywhere — every filesystem probe fails and every `which` exec
rejects. -/
def c5Env : AppEnv :=
  { detect := ⟨toL "u", fun _ => false, fun _ => none⟩
    activeFile := some c5File
    basePath := toL "/Users/a/Vault"
    cwd := toL "/w"
    tempFile := toL "/tmp/obsidian-claude-1.scpt"
    writeError := none
    osaErr := none
    unlinkFails := false }

/-- Counterexample to C5 as stated: with no binary present anywhere and a
fresh state, the invocation surfaces the not-found notice and runs no
osascript, but it passes two `which` commands to the process-spawning exec
primitive — not zero. -/
theorem c5_counterexample :
    (openInClaudeCode c5Env initState).notices = [noticeNotFound] ∧
    (openInClaudeCode c5Env initState).osascriptRuns = 0 ∧
    (openInClaudeCode c5Env initState).execCalls
      = [toL "which claude-code", toL "which claude"] ∧
    (openInClaudeCode c5Env initState).execCalls.length = 2 :=
  ⟨by decide, by decide, by decide, by decide⟩

lemma scanNames_none {env : DetectEnv} (hfs : ∀ q, env.fsExists q = false)
    (pat : List Char) : ∀ names2, scanNames env pat names2 = none := by
  intro names2
  induction names2 with
  | nil => rfl
  | cons b bs ih =>
    rw [scanNames, hfs, Bool.and_false, if_neg (by simp)]
    exact ih

lemma scanLocations_none {env : DetectEnv} (hfs : ∀ q, env.fsExists q = false)
    (names : List (List Char)) : ∀ pats, scanLocations env names pats = none := by
  intro pats
  induction pats with
  | nil => rfl
  | cons pat rest ih =>
    rw [scanLocations, scanNames_none hfs pat names]
    exact ih

/-- C5 (amended): when no binary exists in any well-known location and
every search-path lookup fails, a fresh invocation with an active markdown
file caches `none`, surfaces the binary-not-found notice, returns, and
spawns zero launch (osascript) processes; the only commands passed to the
exec primitive are the two `which` lookups of first-time detection. -/
theorem c5_amended (env : AppEnv) (f : ObsFile)
    (ha : env.activeFile = some f)
    (hmd : f.extension = toL "md")
    (hfs : ∀ q, env.detect.fsExists q = false)
    (hwh : ∀ b, env.detect.whichOut b = none) :
    (openInClaudeCode env initState).state = ⟨none, true⟩ ∧
    (openInClaudeCode env initState).notices = [noticeNotFound] ∧
    (openInClaudeCode env initState).osascriptRuns = 0 ∧
    (openInClaudeCode env initState).execCalls
      = [toL "which claude-code", toL "which claude"] := by
  have h2 : scanPath env.detect [toL "claude"] = (none, [toL "which " ++ toL "claude"]) := by
    rw [scanPath_cons_valid_miss (by decide) (by rw [hwh]; rfl)]
    rfl
  have h1 : scanPath env.detect binaryNames
      = (none, [toL "which claude-code", toL "which claude"]) := by
    show scanPath env.detect (toL "claude-code" :: [toL "claude"]) = _
    rw [scanPath_cons_valid_miss (by decide) (by rw [hwh]; rfl), h2]
    decide
  have hdet : detectClaudeCode env.detect
      = (none, [toL "which claude-code", toL "which claude"]) := by
    rw [detectClaudeCode, detectClaudeCodeWith,
      scanLocations_none hfs binaryNames (locationList env.detect.user)]
    exact h1
  have hgc : getClaudeCodePath env.detect initState
      = ⟨none, ⟨none, true⟩, 1, [toL "which claude-code", toL "which claude"]⟩ := by
    rw [getClaudeCodePath, if_neg (by simp [initState]), hdet]
  have hout : openInClaudeCode env initState
      = ⟨⟨none, true⟩, [noticeNotFound], [toL "which claude-code", toL "which claude"], 0⟩ := by
    rw [openInClaudeCode, ha]
    simp only [Option.elim_some]
    rw [if_neg (fun hne => hne hmd), hgc]
    rfl
  rw [hout]
  exact ⟨rfl, rfl, rfl, rfl⟩

/-- Witness for the amended C5 at the concrete no-binary environment. -/
theorem c5_amended_witness :
    c5Env.activeFile = some c5File ∧ c5File.extension = toL "md" ∧
    (openInClaudeCode c5Env initState).state = PluginState.mk none true ∧
    (openInClaudeCode c5Env initState).notices = [noticeNotFound] ∧
    (openInClaudeCode c5Env initState).osascriptRuns = 0 ∧
    (openInClaudeCode c5Env initState).execCalls
      = [toL "which claude-code", toL "which claude"] := by
  have h := c5_amended c5Env c5File rfl rfl (fun q => rfl) (fun b => rfl)
  exact ⟨rfl, rfl, h.1, h.2.1, h.2.2.1, h.2.2.2⟩

/-- C7: the launcher builds the shell command as the tokens `cd`, the
shell-quoted directory, `&&`, the shell-quoted binary path, and the
shell-quoted `@`-prefixed note path, joined by single spaces; and for the
document `Notes/Meeting (2025).md` under root `/Users/a/Vault`, validation
yields `/Users/a/Vault/Notes/Meeting (2025).md` whose shell-quoted token
is that path wrapped in single quotes. -/
theorem c7_command_shape_and_scenario :
    (∀ claudePath dir notePath tempFile we oe uf,
      (launchTerminal claudePath dir notePath tempFile we oe uf).shellCommand
        = toL "cd" ++ [' '] ++ escapeShellArg dir ++ [' '] ++ toL "&&" ++ [' ']
          ++ escapeShellArg claudePath ++ [' '] ++ escapeShellArg ('@' :: notePath)) ∧
    getFilePaths (toL "/w") (toL "/Users/a/Vault") (toL "Notes/Meeting (2025).md")
      = some ⟨toL "/Users/a/Vault/Notes/Meeting (2025).md", toL "/Users/a/Vault/Notes"⟩ ∧
    escapeShellArg (toL "/Users/a/Vault/Notes/Meeting (2025).md")
      = qc :: toL "/Users/a/Vault/Notes/Meeting (2025).md" ++ [qc] := by
  refine ⟨?_, by decide, by decide⟩
  intro claudePath dir notePath tempFile we oe uf
  have hsc : (launchTerminal claudePath dir notePath tempFile we oe uf).shellCommand
      = buildShellCommand claudePath dir notePath := by
    cases we with
    | none => rfl
    | some m => rfl
  rw [hsc, buildShellCommand]
  simp [joinWith, List.append_assoc]
